import Mathlib

/-!
Verification of the memcache-backed coordination primitives (Bloom filter,
distributed lock, recency queue) of the `bloom-filter` library.

The Python sources are shallowly embedded:
* machine integers are `Nat`/`Int` with explicit reductions modulo `2 ^ 32`;
* the memcache store for each primitive is a single-key state record
  (value plus a compare-and-set version counter, or a value with an expiry
  time for the lock);
* fallible operations return `Except`;
* Python's `bitarray` serialization (`tobytes`/`frombytes`, most significant
  bit first within each byte) is embedded as `bitsToBytes`/`bytesToBits`.
-/

namespace BloomSpec

/-! ## MurmurHash3 (x86, 32-bit), as computed by `mmh3.hash` in `bloom/bloom.py`.

All 32-bit arithmetic is on `Nat` with explicit `% M32` reductions.
Input is a byte string, given as a list of byte values.
-/

def M32 : Nat := 4294967296

def rotl32 (x r : Nat) : Nat := ((x <<< r) % M32) ||| (x >>> (32 - r))

def mm3C1 : Nat := 0xcc9e2d51

def mm3C2 : Nat := 0x1b873593

/-- Mix the 4-byte little-endian blocks of the input into the hash state;
return the final state together with the remaining tail (at most 3 bytes). -/
def mm3Body : Nat → List Nat → Nat × List Nat
  | h, b0 :: b1 :: b2 :: b3 :: rest =>
      let k := b0 ||| (b1 <<< 8) ||| (b2 <<< 16) ||| (b3 <<< 24)
      let k := (k * mm3C1) % M32
      let k := rotl32 k 15
      let k := (k * mm3C2) % M32
      let h := h ^^^ k
      let h := rotl32 h 13
      let h := (h * 5 + 0xe6546b64) % M32
      mm3Body h rest
  | h, tail => (h, tail)

/-- Little-endian word formed from the tail bytes (the reference `switch`). -/
def mm3TailK : List Nat → Nat
  | [t0] => t0
  | [t0, t1] => t0 ||| (t1 <<< 8)
  | [t0, t1, t2] => t0 ||| (t1 <<< 8) ||| (t2 <<< 16)
  | _ => 0

def mm3Tail (h : Nat) (tail : List Nat) : Nat :=
  if tail.isEmpty then h
  else
    let k := (mm3TailK tail * mm3C1) % M32
    let k := rotl32 k 15
    let k := (k * mm3C2) % M32
    h ^^^ k

def fmix32 (h : Nat) : Nat :=
  let h := h ^^^ (h >>> 16)
  let h := (h * 0x85ebca6b) % M32
  let h := h ^^^ (h >>> 13)
  let h := (h * 0xc2b2ae35) % M32
  h ^^^ (h >>> 16)

/-- MurmurHash3_x86_32 of a byte string, as an unsigned 32-bit value. -/
def murmur3_x86_32 (data : List Nat) (seed : Nat) : Nat :=
  let bt := mm3Body seed data
  let h := mm3Tail bt.1 bt.2
  fmix32 (h ^^^ data.length)

/-- `mmh3.hash` returns the hash as a signed 32-bit integer
(two's complement reading of the unsigned value). -/
def mm3SignedHash (data : List Nat) (seed : Nat) : Int :=
  let h := murmur3_x86_32 data seed
  if h < 2 ^ 31 then (h : Int) else (h : Int) - 2 ^ 32

/-! ## JSON canonicalization of string values

`BloomFilter._bit_offsets` encodes the value with `json.dumps(value,
sort_keys=True)` before hashing.  For string values this is the standard
JSON string encoding with `ensure_ascii` escapes; the result is an ASCII
byte string.
-/

def hexDigitChar (n : Nat) : Nat :=
  if n < 10 then 48 + n else 87 + n

/-- `\uXXXX` escape (as ASCII byte values) for a 16-bit code unit. -/
def uEscape (n : Nat) : List Nat :=
  [92, 117, hexDigitChar (n / 4096 % 16), hexDigitChar (n / 256 % 16),
   hexDigitChar (n / 16 % 16), hexDigitChar (n % 16)]

/-- The bytes emitted for one character of a JSON-encoded string
(`json.dumps` with its default `ensure_ascii=True`). -/
def jsonEscapeChar (c : Char) : List Nat :=
  let n := c.toNat
  if n = 34 then [92, 34]
  else if n = 92 then [92, 92]
  else if n = 8 then [92, 98]
  else if n = 9 then [92, 116]
  else if n = 10 then [92, 110]
  else if n = 12 then [92, 102]
  else if n = 13 then [92, 114]
  else if n < 32 then uEscape n
  else if n < 127 then [n]
  else if n < 65536 then uEscape n
  else uEscape (55296 + (n - 65536) / 1024) ++ uEscape (56320 + (n - 65536) % 1024)

/-- `json.dumps` of a string value: a double-quoted, escaped ASCII byte string. -/
def jsonEncodeString (s : String) : List Nat :=
  34 :: (s.data.map jsonEscapeChar).flatten ++ [34]

/-! ## Bit offsets (`BloomFilter._bit_offsets`) -/

/-- One bit offset: the signed 32-bit hash reduced modulo `m`.
Python's `%` on a positive modulus agrees with `Int.emod`. -/
def bitOffset (m : Nat) (data : List Nat) (seed : Nat) : Nat :=
  (mm3SignedHash data seed % (m : Int)).toNat

/-- The `k` bit offsets of an encoded value, for seeds `0, 1, ..., k-1`. -/
def bitOffsets (m k : Nat) (data : List Nat) : List Nat :=
  (List.range k).map (bitOffset m data)

/-- C7: for every value, the bit offsets are the 32-bit signed MurmurHash3
values of the JSON encoding under seeds `0..k-1`, reduced modulo `m` with
language-native signed modulo — this is the definition `bitOffsets` above;
for the `BloomFilter(n=100, p=0.01)` geometry (`m = 960`, `k = 7`) the
offsets of `"rajiv"`, `"raj"` and `"dan"` are the reference tuples. -/
theorem bloom_bit_offsets_reference :
    bitOffsets 960 7 (jsonEncodeString "rajiv") = [17, 271, 669, 242, 166, 4, 536] ∧
    bitOffsets 960 7 (jsonEncodeString "raj") = [521, 491, 440, 871, 938, 682, 455] ∧
    bitOffsets 960 7 (jsonEncodeString "dan") = [61, 854, 730, 730, 475, 364, 850] := by
  decide

/-! ## Bit-array serialization

`bitarray.tobytes()` packs bits most-significant-bit first into bytes,
zero-padding a final partial byte; `bitarray.frombytes()` unpacks.
-/

/-- The byte holding eight bits, most significant bit first. -/
def bits8 (b0 b1 b2 b3 b4 b5 b6 b7 : Bool) : Nat :=
  (if b0 then 128 else 0) + (if b1 then 64 else 0) + (if b2 then 32 else 0) +
  (if b3 then 16 else 0) + (if b4 then 8 else 0) + (if b5 then 4 else 0) +
  (if b6 then 2 else 0) + (if b7 then 1 else 0)

/-- `bitarray.tobytes()`: pack, zero-padding the final partial byte. -/
def bitsToBytes : List Bool → List Nat
  | [] => []
  | b0 :: b1 :: b2 :: b3 :: b4 :: b5 :: b6 :: b7 :: rest =>
      bits8 b0 b1 b2 b3 b4 b5 b6 b7 :: bitsToBytes rest
  | l => [bits8 (l.getD 0 false) (l.getD 1 false) (l.getD 2 false) (l.getD 3 false)
            (l.getD 4 false) (l.getD 5 false) (l.getD 6 false) (l.getD 7 false)]

/-- One byte unpacked to its eight bits, most significant bit first. -/
def byteToBits (b : Nat) : List Bool :=
  [b.testBit 7, b.testBit 6, b.testBit 5, b.testBit 4,
   b.testBit 3, b.testBit 2, b.testBit 1, b.testBit 0]

/-- `bitarray.frombytes()`: unpack a byte string into its bits. -/
def bytesToBits : List Nat → List Bool
  | [] => []
  | b :: rest => byteToBits b ++ bytesToBits rest

theorem byteToBits_bits8 (b0 b1 b2 b3 b4 b5 b6 b7 : Bool) :
    byteToBits (bits8 b0 b1 b2 b3 b4 b5 b6 b7) = [b0, b1, b2, b3, b4, b5, b6, b7] := by
  cases b0 <;> cases b1 <;> cases b2 <;> cases b3 <;>
    cases b4 <;> cases b5 <;> cases b6 <;> cases b7 <;> decide

/-- Serialization round trip: on a bit array whose length is a multiple of
eight (as guaranteed by the size formula), `frombytes ∘ tobytes` is the
identity. -/
theorem bytesToBits_bitsToBytes : ∀ (bits : List Bool), bits.length % 8 = 0 →
    bytesToBits (bitsToBytes bits) = bits
  | [], _ => rfl
  | [b0], h => by simp only [List.length_cons, List.length_nil] at h; omega
  | [b0, b1], h => by simp only [List.length_cons, List.length_nil] at h; omega
  | [b0, b1, b2], h => by simp only [List.length_cons, List.length_nil] at h; omega
  | [b0, b1, b2, b3], h => by simp only [List.length_cons, List.length_nil] at h; omega
  | [b0, b1, b2, b3, b4], h => by
      simp only [List.length_cons, List.length_nil] at h; omega
  | [b0, b1, b2, b3, b4, b5], h => by
      simp only [List.length_cons, List.length_nil] at h; omega
  | [b0, b1, b2, b3, b4, b5, b6], h => by
      simp only [List.length_cons, List.length_nil] at h; omega
  | b0 :: b1 :: b2 :: b3 :: b4 :: b5 :: b6 :: b7 :: rest, h => by
      have hr : rest.length % 8 = 0 := by
        simp only [List.length_cons] at h; omega
      show byteToBits (bits8 b0 b1 b2 b3 b4 b5 b6 b7) ++ bytesToBits (bitsToBytes rest) =
        b0 :: b1 :: b2 :: b3 :: b4 :: b5 :: b6 :: b7 :: rest
      rw [byteToBits_bits8, bytesToBits_bitsToBytes rest hr]
      rfl

/-! ## The memcache store for the Bloom filter key

A single-key view of the store: the current value (a byte string, when the
key is present) and a version counter standing for the `gets`/`cas` token.
`set` and a successful `cas` both install a fresh token; `cas` succeeds
exactly when the key is present and the supplied token is current.
-/

structure MStore where
  val : Option (List Nat)
  ver : Nat
  deriving DecidableEq, Repr

def mcGets (st : MStore) : Option (List Nat) × Option Nat :=
  match st.val with
  | none => (none, none)
  | some b => (some b, some st.ver)

def mcSet (b : List Nat) (st : MStore) : MStore :=
  ⟨some b, st.ver + 1⟩

def mcCas (b : List Nat) (tok : Nat) (st : MStore) : Bool × MStore :=
  match st.val with
  | none => (false, st)
  | some _ => if tok = st.ver then (true, ⟨some b, st.ver + 1⟩) else (false, st)

/-! ## BloomFilter state and operations (`bloom/bloom.py`) -/

/-- The local state of a `BloomFilter` instance: its bit array
(`self._bit_array`) and last-observed CAS token (`self._cas`). -/
structure BFState where
  bits : List Bool
  cas : Option Nat
  deriving DecidableEq, Repr

inductive BloomErr where
  | checkAndSetError
  deriving DecidableEq, Repr

/-- `BloomFilter._load_bit_array`: `gets` the key; when absent, write a
zeroed array of `m` bits with an unconditional `set` and reload once
(the recursion in the source bottoms out after that single `set`). -/
def loadBitArray (m : Nat) (st : MStore) : BFState × MStore :=
  match mcGets st with
  | (none, _) =>
      let b := bitsToBytes (List.replicate m false)
      let st1 := mcSet b st
      (⟨bytesToBits b, some st1.ver⟩, st1)
  | (some b, tok) => (⟨bytesToBits b, tok⟩, st)

/-- `BloomFilter._store_bit_array`: `set` when no token is held, otherwise
`cas`; a failed `cas` raises `CheckAndSetError`; on success reload to
refresh the local view. -/
def storeBitArray (m : Nat) (s : BFState) (st : MStore) :
    Except BloomErr (BFState × MStore) :=
  let b := bitsToBytes s.bits
  match s.cas with
  | none => Except.ok (loadBitArray m (mcSet b st))
  | some tok =>
      match mcCas b tok st with
      | (true, st1) => Except.ok (loadBitArray m st1)
      | (false, _) => Except.error BloomErr.checkAndSetError

/-- Set the bits at the given offsets to 1 (the `update` loop; the source
collects the offsets into a set first, which only removes duplicates, and
setting a bit twice is idempotent). -/
def updateBits (bits : List Bool) (offs : List Nat) : List Bool :=
  offs.foldl (fun acc o => acc.set o true) bits

/-- One (non-retried) body of `BloomFilter.update`: union of all supplied
elements' offsets set locally, then persisted. Elements are given by their
canonical JSON encodings. -/
def bfUpdate (m k : Nat) (vals : List (List Nat)) (s : BFState) (st : MStore) :
    Except BloomErr (BFState × MStore) :=
  let offs := (vals.map (bitOffsets m k)).flatten
  storeBitArray m ⟨updateBits s.bits offs, s.cas⟩ st

/-- `BloomFilter.add(value)` is `update({value})`. -/
def bfAdd (m k : Nat) (e : List Nat) (s : BFState) (st : MStore) :
    Except BloomErr (BFState × MStore) :=
  bfUpdate m k [e] s st

/-- Reading one bit of the local array (`self._bit_array[bit_offset]`),
totalized with a `false` default for an out-of-range index. -/
def bitGet (bits : List Bool) (o : Nat) : Bool :=
  (bits[o]?).getD false

/-- `BloomFilter.__contains__`: all `k` bits for the value are set locally
(the source's intermediate set only removes duplicate offsets, which does
not change the conjunction). -/
def bfContains (m k : Nat) (e : List Nat) (s : BFState) : Bool :=
  (bitOffsets m k e).all (fun o => bitGet s.bits o)

theorem bitGet_set_self (l : List Bool) (o : Nat) (h : o < l.length) :
    bitGet (l.set o true) o = true := by
  simp [bitGet, List.getElem?_set_eq_of_lt true h]

theorem bitGet_set_mono (l : List Bool) (i o : Nat) (h : bitGet l o = true) :
    bitGet (l.set i true) o = true := by
  by_cases hio : i = o
  · subst hio
    have hlt : i < l.length := by
      by_contra hge
      have hnone : l[i]? = none := List.getElem?_eq_none (by omega)
      simp [bitGet, hnone] at h
    exact bitGet_set_self l i hlt
  · simpa [bitGet, List.getElem?_set_ne hio] using h

theorem updateBits_length (offs : List Nat) :
    ∀ bits : List Bool, (updateBits bits offs).length = bits.length := by
  induction offs with
  | nil => intro bits; rfl
  | cons a rest ih =>
      intro bits
      simpa [updateBits, List.foldl_cons, List.length_set] using ih (bits.set a true)

theorem updateBits_mono (offs : List Nat) :
    ∀ (bits : List Bool) (o : Nat), bitGet bits o = true →
      bitGet (updateBits bits offs) o = true := by
  induction offs with
  | nil => intro bits o h; exact h
  | cons a rest ih =>
      intro bits o h
      simpa [updateBits, List.foldl_cons] using
        ih (bits.set a true) o (bitGet_set_mono bits a o h)

theorem updateBits_mem (offs : List Nat) :
    ∀ (bits : List Bool) (o : Nat), o ∈ offs → o < bits.length →
      bitGet (updateBits bits offs) o = true := by
  induction offs with
  | nil => intro _ _ h _; cases h
  | cons a rest ih =>
      intro bits o ho hlt
      rcases List.mem_cons.mp ho with rfl | hmem
      · have h1 : bitGet (bits.set o true) o = true := bitGet_set_self bits o hlt
        simpa [updateBits, List.foldl_cons] using updateBits_mono rest (bits.set o true) o h1
      · have : o < (bits.set a true).length := by simpa [List.length_set] using hlt
        simpa [updateBits, List.foldl_cons] using ih (bits.set a true) o hmem this

theorem bitOffset_lt (m : Nat) (hm : 0 < m) (data : List Nat) (seed : Nat) :
    bitOffset m data seed < m := by
  unfold bitOffset
  have hm' : (0 : Int) < (m : Int) := by exact_mod_cast hm
  have h1 := Int.emod_lt_of_pos (mm3SignedHash data seed) hm'
  have h2 := Int.emod_nonneg (mm3SignedHash data seed) (ne_of_gt hm')
  omega

theorem loadBitArray_some (m : Nat) (st : MStore) (b : List Nat)
    (h : st.val = some b) :
    loadBitArray m st = (⟨bytesToBits b, some st.ver⟩, st) := by
  simp [loadBitArray, mcGets, h]

/-- C1: no false negatives — for every geometry and every JSON-encoded value
`e`, if `F.add(e)` completes successfully (one `_store_bit_array` pass with
no concurrent loss and no intervening clear), the membership test on the
resulting local state returns `true`. -/
theorem bloom_add_no_false_negatives (m k : Nat) (e : List Nat) (s : BFState)
    (st : MStore) (s' : BFState) (st' : MStore)
    (hm : 0 < m) (hlen : s.bits.length = m) (h8 : m % 8 = 0)
    (h : bfAdd m k e s st = Except.ok (s', st')) :
    bfContains m k e s' = true := by
  have hoffs : ([e].map (bitOffsets m k)).flatten = bitOffsets m k e := by simp
  have hset : ∀ o ∈ bitOffsets m k e,
      bitGet (updateBits s.bits (bitOffsets m k e)) o = true := by
    intro o ho
    apply updateBits_mem
    · exact ho
    · rw [hlen]
      obtain ⟨seed, -, rfl⟩ := List.mem_map.mp ho
      exact bitOffset_lt m hm e seed
  have hlen2 : (updateBits s.bits (bitOffsets m k e)).length = m := by
    rw [updateBits_length, hlen]
  have hrt : bytesToBits (bitsToBytes (updateBits s.bits (bitOffsets m k e))) =
      updateBits s.bits (bitOffsets m k e) :=
    bytesToBits_bitsToBytes _ (by rw [hlen2]; exact h8)
  have hs' : s'.bits = updateBits s.bits (bitOffsets m k e) := by
    unfold bfAdd bfUpdate at h
    rw [hoffs] at h
    unfold storeBitArray at h
    rcases s with ⟨bits, cas⟩
    cases cas with
    | none =>
        dsimp only at h
        rw [loadBitArray_some m
          (mcSet (bitsToBytes (updateBits bits (bitOffsets m k e))) st)
          (bitsToBytes (updateBits bits (bitOffsets m k e))) rfl] at h
        injection h with h1
        injection h1 with hA hB
        rw [← hA]
        exact hrt
    | some tok =>
        simp only [mcCas] at h
        rcases hval : st.val with - | b0
        · rw [hval] at h; cases h
        · rw [hval] at h
          by_cases htok : tok = st.ver
          · rw [if_pos htok] at h
            dsimp only at h
            rw [loadBitArray_some m
              ⟨some (bitsToBytes (updateBits bits (bitOffsets m k e))), st.ver + 1⟩
              (bitsToBytes (updateBits bits (bitOffsets m k e))) rfl] at h
            injection h with h1
            injection h1 with hA hB
            rw [← hA]
            exact hrt
          · rw [if_neg htok] at h; cases h
  unfold bfContains
  rw [List.all_eq_true]
  intro o ho
  rw [hs']
  exact hset o ho

/-- Witness for C1: a concrete successful `add` on an 8-bit filter with one
hash, starting from an absent key, after which the value tests as present. -/
theorem bloom_add_no_false_negatives_witness :
    bfContains 8 1 [0]
      ⟨[false, false, false, false, false, false, false, true], some 1⟩ = true :=
  bloom_add_no_false_negatives 8 1 [0] ⟨List.replicate 8 false, none⟩ ⟨none, 0⟩
    ⟨[false, false, false, false, false, false, false, true], some 1⟩
    ⟨some [1], 1⟩ (by decide) (by decide) (by decide) rfl

/-! ## The CAS retry wrapper (`BloomFilter._retry_check_and_set`)

Concurrent interference is modelled by a schedule: before attempt `i`, an
external client may install its own byte string with an unconditional `set`
(`sched i = some bytes`), which invalidates the token our instance holds.
-/

def externalWrite (w : Option (List Nat)) (st : MStore) : MStore :=
  match w with
  | none => st
  | some b => mcSet b st

/-- One wrapped attempt of a mutating public call (`update` or `clear`):
apply the mutation to the local bit array and persist via
`_store_bit_array`. -/
def attemptMut (m : Nat) (mutate : List Bool → List Bool) (s : BFState) (st : MStore) :
    Except BloomErr (BFState × MStore) :=
  storeBitArray m ⟨mutate s.bits, s.cas⟩ st

/-- `BloomFilter._retry_check_and_set(num_tries=3)`: run the wrapped call;
on `CheckAndSetError` fully reload the bit array and token
(`_load_bit_array`) and replay the call, for at most `remaining` further
attempts; re-raise after the final failed attempt.  The second component of
the result counts the attempts made. -/
def retryCheckAndSet (m : Nat) (mutate : List Bool → List Bool)
    (sched : Nat → Option (List Nat)) :
    Nat → Nat → BFState → MStore → Except BloomErr (BFState × MStore) × Nat
  | 0, _, _, _ => (Except.error BloomErr.checkAndSetError, 0)
  | remaining + 1, tryNum, s, st =>
      let st1 := externalWrite (sched tryNum) st
      match attemptMut m mutate s st1 with
      | Except.ok r => (Except.ok r, 1)
      | Except.error e =>
          if remaining = 0 then (Except.error e, 1)
          else
            let ls := loadBitArray m st1
            let rc := retryCheckAndSet m mutate sched remaining (tryNum + 1) ls.1 ls.2
            (rc.1, rc.2 + 1)

/-- The local view is in sync with the store: the key is present, the held
token is current, and the local bit array is the unpacked stored value
(this holds after every `_load_bit_array`). -/
def synced (s : BFState) (st : MStore) : Prop :=
  ∃ b, st.val = some b ∧ s.cas = some st.ver ∧ s.bits = bytesToBits b

theorem attemptMut_ok (m : Nat) (mutate : List Bool → List Bool) (s : BFState)
    (st : MStore) (b : List Nat) (hval : st.val = some b)
    (hcas : s.cas = some st.ver) :
    attemptMut m mutate s st =
      Except.ok (loadBitArray m (mcSet (bitsToBytes (mutate s.bits)) st)) := by
  unfold attemptMut storeBitArray
  dsimp only
  rw [hcas]
  simp [mcCas, hval, mcSet]

theorem attemptMut_fail (m : Nat) (mutate : List Bool → List Bool) (s : BFState)
    (st : MStore) (w : List Nat) (hcas : s.cas = some st.ver) :
    attemptMut m mutate s (mcSet w st) = Except.error BloomErr.checkAndSetError := by
  unfold attemptMut storeBitArray
  dsimp only
  rw [hcas]
  have hne : st.ver ≠ st.ver + 1 := by omega
  simp [mcCas, mcSet, hne]

theorem retry_succ_none (m : Nat) (mutate : List Bool → List Bool)
    (sched : Nat → Option (List Nat)) (remaining tryNum : Nat) (s : BFState)
    (st : MStore) (b : List Nat) (hsched : sched tryNum = none)
    (hval : st.val = some b) (hcas : s.cas = some st.ver) :
    retryCheckAndSet m mutate sched (remaining + 1) tryNum s st =
      (Except.ok (loadBitArray m (mcSet (bitsToBytes (mutate s.bits)) st)), 1) := by
  simp only [retryCheckAndSet, hsched]
  dsimp only [externalWrite]
  rw [attemptMut_ok m mutate s st b hval hcas]

theorem retry_succ_some (m : Nat) (mutate : List Bool → List Bool)
    (sched : Nat → Option (List Nat)) (remaining tryNum : Nat) (s : BFState)
    (st : MStore) (w : List Nat) (hrem : remaining ≠ 0)
    (hsched : sched tryNum = some w) (hcas : s.cas = some st.ver) :
    retryCheckAndSet m mutate sched (remaining + 1) tryNum s st =
      ((retryCheckAndSet m mutate sched remaining (tryNum + 1)
          ⟨bytesToBits w, some (st.ver + 1)⟩ (mcSet w st)).1,
       (retryCheckAndSet m mutate sched remaining (tryNum + 1)
          ⟨bytesToBits w, some (st.ver + 1)⟩ (mcSet w st)).2 + 1) := by
  simp only [retryCheckAndSet, hsched]
  dsimp only [externalWrite]
  rw [attemptMut_fail m mutate s st w hcas]
  dsimp only
  rw [if_neg hrem, loadBitArray_some m (mcSet w st) w rfl]
  rfl

theorem retry_last_some (m : Nat) (mutate : List Bool → List Bool)
    (sched : Nat → Option (List Nat)) (tryNum : Nat) (s : BFState)
    (st : MStore) (w : List Nat)
    (hsched : sched tryNum = some w) (hcas : s.cas = some st.ver) :
    retryCheckAndSet m mutate sched (0 + 1) tryNum s st =
      (Except.error BloomErr.checkAndSetError, 1) := by
  simp only [retryCheckAndSet, hsched]
  dsimp only [externalWrite]
  rw [attemptMut_fail m mutate s st w hcas]
  simp

/-- C4: each public mutation makes up to 3 total CAS attempts; it surfaces
the retriable `CheckAndSetError` exactly when all three attempts hit
concurrent interference, and only on the third attempt; between attempts it
fully reloads bytes and token from the store and replays the mutation on the
refreshed base (shown here for interference on the first attempt only: the
persisted result is the mutation applied to the interfering write's bits). -/
theorem bloom_cas_retry_protocol (m : Nat) (mutate : List Bool → List Bool)
    (sched : Nat → Option (List Nat)) (s : BFState) (st : MStore)
    (hsync : synced s st) :
    (retryCheckAndSet m mutate sched 3 0 s st).2 ≤ 3 ∧
    ((retryCheckAndSet m mutate sched 3 0 s st).1 =
        Except.error BloomErr.checkAndSetError ↔
      ((sched 0).isSome ∧ (sched 1).isSome ∧ (sched 2).isSome)) ∧
    ((retryCheckAndSet m mutate sched 3 0 s st).1 =
        Except.error BloomErr.checkAndSetError →
      (retryCheckAndSet m mutate sched 3 0 s st).2 = 3) ∧
    (∀ b, sched 0 = some b → sched 1 = none →
      retryCheckAndSet m mutate sched 3 0 s st =
        (Except.ok (loadBitArray m
          (mcSet (bitsToBytes (mutate (bytesToBits b))) (mcSet b st))), 2)) := by
  obtain ⟨b0, hval, hcas, hbits⟩ := hsync
  cases h0 : sched 0 with
  | none =>
      have hR : retryCheckAndSet m mutate sched 3 0 s st =
          (Except.ok (loadBitArray m (mcSet (bitsToBytes (mutate s.bits)) st)), 1) :=
        retry_succ_none m mutate sched 2 0 s st b0 h0 hval hcas
      refine ⟨?_, ?_, ?_, ?_⟩
      · rw [hR]; omega
      · rw [hR]; simp [h0]
      · rw [hR]; simp
      · intro b hb; cases hb
  | some w0 =>
      have hR3 : retryCheckAndSet m mutate sched 3 0 s st =
          ((retryCheckAndSet m mutate sched 2 1
              ⟨bytesToBits w0, some (st.ver + 1)⟩ (mcSet w0 st)).1,
           (retryCheckAndSet m mutate sched 2 1
              ⟨bytesToBits w0, some (st.ver + 1)⟩ (mcSet w0 st)).2 + 1) :=
        retry_succ_some m mutate sched 2 0 s st w0 (by omega) h0 hcas
      cases h1 : sched 1 with
      | none =>
          have hR2 : retryCheckAndSet m mutate sched 2 1
              ⟨bytesToBits w0, some (st.ver + 1)⟩ (mcSet w0 st) =
              (Except.ok (loadBitArray m
                (mcSet (bitsToBytes (mutate (bytesToBits w0))) (mcSet w0 st))), 1) :=
            retry_succ_none m mutate sched 1 1 _ (mcSet w0 st) w0 h1 rfl rfl
          refine ⟨?_, ?_, ?_, ?_⟩
          · rw [hR3, hR2]; omega
          · rw [hR3, hR2]; simp [h1]
          · rw [hR3, hR2]; simp
          · intro b hb hb1
            injection hb with hb
            subst hb
            rw [hR3, hR2]
      | some w1 =>
          have hR2 : retryCheckAndSet m mutate sched 2 1
              ⟨bytesToBits w0, some (st.ver + 1)⟩ (mcSet w0 st) =
              ((retryCheckAndSet m mutate sched 1 2
                  ⟨bytesToBits w1, some (st.ver + 1 + 1)⟩ (mcSet w1 (mcSet w0 st))).1,
               (retryCheckAndSet m mutate sched 1 2
                  ⟨bytesToBits w1, some (st.ver + 1 + 1)⟩ (mcSet w1 (mcSet w0 st))).2 + 1) :=
            retry_succ_some m mutate sched 1 1 _ (mcSet w0 st) w1 (by omega) h1 rfl
          cases h2 : sched 2 with
          | none =>
              have hR1 : retryCheckAndSet m mutate sched 1 2
                  ⟨bytesToBits w1, some (st.ver + 1 + 1)⟩ (mcSet w1 (mcSet w0 st)) =
                  (Except.ok (loadBitArray m
                    (mcSet (bitsToBytes (mutate (bytesToBits w1)))
                      (mcSet w1 (mcSet w0 st)))), 1) :=
                retry_succ_none m mutate sched 0 2 _ (mcSet w1 (mcSet w0 st)) w1 h2 rfl rfl
              refine ⟨?_, ?_, ?_, ?_⟩
              · rw [hR3, hR2, hR1]
              · rw [hR3, hR2, hR1]; simp [h2]
              · rw [hR3, hR2, hR1]; simp
              · intro b hb hb1; cases hb1
          | some w2 =>
              have hR1 : retryCheckAndSet m mutate sched 1 2
                  ⟨bytesToBits w1, some (st.ver + 1 + 1)⟩ (mcSet w1 (mcSet w0 st)) =
                  (Except.error BloomErr.checkAndSetError, 1) :=
                retry_last_some m mutate sched 2 _ (mcSet w1 (mcSet w0 st)) w2 h2 rfl
              refine ⟨?_, ?_, ?_, ?_⟩
              · rw [hR3, hR2, hR1]
              · rw [hR3, hR2, hR1]; simp [h0, h1, h2]
              · rw [hR3, hR2, hR1]; simp
              · intro b hb hb1; cases hb1

/-- Witness for C4: a concrete run in which an interfering write hits the
first attempt only; the call succeeds with two attempts, replaying the
mutation on the interfering write's bits. -/
theorem bloom_cas_retry_protocol_witness :
    retryCheckAndSet 8 (fun bits => updateBits bits [0])
      (fun i => if i = 0 then some [255] else none) 3 0
      ⟨bytesToBits [0], some 0⟩ ⟨some [0], 0⟩ =
      (Except.ok (loadBitArray 8
        (mcSet (bitsToBytes (updateBits (bytesToBits [255]) [0]))
          (mcSet [255] ⟨some [0], 0⟩))), 2) :=
  (bloom_cas_retry_protocol 8 (fun bits => updateBits bits [0])
    (fun i => if i = 0 then some [255] else none)
    ⟨bytesToBits [0], some 0⟩ ⟨some [0], 0⟩
    ⟨[0], rfl, rfl, rfl⟩).2.2.2 [255] rfl rfl

/-! ## MemLock (`bloom/memlock.py`)

The store holds, for the lock's key, at most one value (the holder's random
token) together with its expiry instant (`add`'s `expire=auto_release_time`
lease).  Memcache treats an expired entry as absent: `add` succeeds and
`delete` reports no removed value once the lease has lapsed.  Instants are
natural numbers in arbitrary units.
-/

structure LStore where
  entry : Option (String × Nat)
  deriving DecidableEq, Repr

/-- Whether the key currently has a live (unexpired) value at instant `t`. -/
def lsLive (st : LStore) (t : Nat) : Bool :=
  match st.entry with
  | none => false
  | some (_, e) => decide (t < e)

/-- `memcache.add(key, value, expire, noreply=False)`: writes iff the key is
absent (or its entry has expired); returns success. -/
def lsAdd (v : String) (lease t : Nat) (st : LStore) : Bool × LStore :=
  if lsLive st t then (false, st) else (true, ⟨some (v, t + lease)⟩)

/-- `memcache.delete(key, noreply=False)`: returns whether a value was
removed (an expired entry counts as already gone). -/
def lsDelete (t : Nat) (st : LStore) : Bool × LStore :=
  if lsLive st t then (true, ⟨none⟩) else (false, ⟨none⟩)

/-- An instance holds the lock iff the store's current live value at the key
equals its token. -/
def lsHolds (st : LStore) (t : Nat) (tok : String) : Bool :=
  match st.entry with
  | none => false
  | some (v, e) => decide (t < e) && decide (v = tok)

inductive LockErr where
  | releaseUnlockedLock
  deriving DecidableEq, Repr

/-- `MemLock.acquire(blocking=False, timeout=-1)`: a single `add` of this
instance's token under the lease. -/
def mlAcquireNonBlocking (tok : String) (lease t : Nat) (st : LStore) :
    Bool × LStore :=
  lsAdd tok lease t st

/-- `MemLock.release()`: `delete` with reply required; raise
`ReleaseUnlockedLock` when the delete reports no prior value. -/
def mlRelease (t : Nat) (st : LStore) : Except LockErr LStore :=
  match lsDelete t st with
  | (true, st1) => Except.ok st1
  | (false, _) => Except.error LockErr.releaseUnlockedLock

/-- `MemLock.acquire(blocking=True, timeout)`, driven by a trace of loop
iterations: each entry gives the `timer.elapsed()` reading (milliseconds, a
rational as Python's float ratio) at the loop head and the instant of the
`add` attempt.  `timeout` is in seconds; `-1` means no timeout.  Returns
`none` when the trace runs out with the loop still going, and counts the
`add` attempts performed. -/
def mlAcquireBlocking (tok : String) (lease : Nat) (timeout : ℚ) :
    List (ℚ × Nat) → LStore → Option Bool × LStore × Nat
  | [], st => (none, st, 0)
  | (e, t) :: rest, st =>
      if timeout = -1 ∨ e / 1000 < timeout then
        match lsAdd tok lease t st with
        | (true, st1) => (some true, st1, 1)
        | (false, st1) =>
            let r := mlAcquireBlocking tok lease timeout rest st1
            (r.1, r.2.1, r.2.2 + 1)
      else (some false, st, 0)

/-- C2: mutual exclusion — if A's `acquire` returned `true` under lease `d`
at instant `t0`, then at any instant `t` before the lease expires (with no
intervening store change) B's non-blocking `acquire` returns `false` and
leaves the store unchanged; and on any store state at most one of two
distinct tokens can hold the key's value. -/
theorem memlock_mutual_exclusion (tokA tokB : String) (lease t0 t : Nat)
    (st0 st1 : LStore) (hne : tokA ≠ tokB)
    (hA : lsAdd tokA lease t0 st0 = (true, st1))
    (hexp : t < t0 + lease) :
    mlAcquireNonBlocking tokB lease t st1 = (false, st1) ∧
    lsHolds st1 t tokA = true ∧
    (∀ (st : LStore) (u : Nat),
      ¬(lsHolds st u tokA = true ∧ lsHolds st u tokB = true)) := by
  have hst1 : st1 = ⟨some (tokA, t0 + lease)⟩ := by
    unfold lsAdd at hA
    by_cases hl : lsLive st0 t0 = true
    · rw [if_pos hl] at hA; cases hA
    · rw [if_neg hl] at hA
      injection hA with h1 h2
      exact h2.symm
  subst hst1
  refine ⟨?_, ?_, ?_⟩
  · unfold mlAcquireNonBlocking lsAdd lsLive
    simp [hexp]
  · unfold lsHolds
    simp [hexp]
  · intro st u ⟨ha, hb⟩
    unfold lsHolds at ha hb
    rcases hst : st.entry with - | ⟨v, e⟩
    · rw [hst] at ha; cases ha
    · rw [hst] at ha hb
      simp only [Bool.and_eq_true, decide_eq_true_eq] at ha hb
      exact hne (ha.2.symm.trans hb.2)

/-- Witness for C2: a concrete acquisition by A at instant 0 with lease 5;
B's non-blocking acquire at instant 3 fails. -/
theorem memlock_mutual_exclusion_witness :
    mlAcquireNonBlocking "b" 5 3 ⟨some ("a", 5)⟩ = (false, ⟨some ("a", 5)⟩) :=
  (memlock_mutual_exclusion "a" "b" 5 0 3 ⟨none⟩ ⟨some ("a", 5)⟩
    (by decide) rfl (by omega)).1

/-- C9: `release()` deletes the key with reply required; it raises
`ReleaseUnlockedLock` iff the delete reports no removed value (the key has
no live entry: never acquired, already released, or lease expired), and on
a successful delete it returns normally with the key removed. -/
theorem memlock_release_unowned_iff (t : Nat) (st : LStore) :
    (mlRelease t st = Except.error LockErr.releaseUnlockedLock ↔
      lsLive st t = false) ∧
    (lsLive st t = true → mlRelease t st = Except.ok ⟨none⟩) := by
  constructor
  · constructor
    · intro h
      by_cases hl : lsLive st t = true
      · unfold mlRelease lsDelete at h
        rw [if_pos hl] at h
        cases h
      · simpa using hl
    · intro h
      unfold mlRelease lsDelete
      rw [h]
      simp
  · intro h
    unfold mlRelease lsDelete
    rw [if_pos h]

/-- Witness for C9: releasing a live lock at instant 2 succeeds and removes
the key. -/
theorem memlock_release_unowned_iff_witness :
    mlRelease 2 ⟨some ("a", 5)⟩ = Except.ok ⟨none⟩ :=
  (memlock_release_unowned_iff 2 ⟨some ("a", 5)⟩).2 (by decide)

/-- C10: `acquire(blocking=True, timeout=0)` returns `false` without ever
attempting a store `add`: the elapsed guard (`timer.elapsed() / 1000 <
timeout`) is evaluated before the first attempt and fails for a
non-negative elapsed reading, so the store is unchanged even when the lock
is free. -/
theorem memlock_acquire_zero_timeout_no_store_access (tok : String)
    (lease : Nat) (e : ℚ) (t : Nat) (rest : List (ℚ × Nat)) (st : LStore)
    (he : 0 ≤ e) :
    mlAcquireBlocking tok lease 0 ((e, t) :: rest) st = (some false, st, 0) := by
  unfold mlAcquireBlocking
  have h1 : ¬((0 : ℚ) = -1 ∨ e / 1000 < 0) := by
    rintro (h | h)
    · norm_num at h
    · have : (0 : ℚ) ≤ e / 1000 := by positivity
      linarith
  rw [if_neg h1]

/-- Witness for C10: with a zero timeout and a free lock, the first elapsed
reading of 0 ms already ends the loop with no `add` performed. -/
theorem memlock_acquire_zero_timeout_no_store_access_witness :
    mlAcquireBlocking "a" 1 0 [(0, 0)] ⟨none⟩ = (some false, ⟨none⟩, 0) :=
  memlock_acquire_zero_timeout_no_store_access "a" 1 0 0 [] ⟨none⟩ le_rfl

/-! ## RecentlyConsumed (`bloom/consumed.py`)

Local state: the ordered sequence (`self._deque`) and the membership set
(`self._set`).  The set is modelled as a duplicate-free list with
insert-if-absent and erase.  The store holds, for the queue's key, the JSON
array of strings or nothing; the JSON serialization of a list of strings is
injective and is modelled at the level of the decoded value.  Values are
already their normalized (`unicode`) string forms.
-/

structure RCState where
  deque : List String
  mset : List String
  deriving DecidableEq, Repr

structure RCStore where
  val : Option (List String)
  deriving DecidableEq, Repr

inductive RCErr where
  | persistedOverflow
  deriving DecidableEq, Repr

def setInsert (x : String) (s : List String) : List String :=
  if s.contains x then s else s ++ [x]

/-- `set(list_)`: the membership set built from a list. -/
def listToSet (l : List String) : List String :=
  l.foldl (fun s x => setInsert x s) []

/-- `RecentlyConsumed._load_from_memcache`: read the key (absence is the
empty JSON array), and raise `IndexError` when a bounded queue's persisted
sequence exceeds `maxlen`. -/
def rcLoad (maxlen : Option Nat) (store : RCStore) : Except RCErr RCState :=
  let l := store.val.getD []
  match maxlen with
  | some cap =>
      if cap < l.length then Except.error RCErr.persistedOverflow
      else Except.ok ⟨l, listToSet l⟩
  | none => Except.ok ⟨l, listToSet l⟩

/-- `RecentlyConsumed._store_to_memcache`: `set` the JSON of the sequence
when the membership set is non-empty, else `delete` the key. -/
def rcStoreToMemcache (q : RCState) (_store : RCStore) : RCStore :=
  if q.mset.isEmpty then ⟨none⟩ else ⟨some q.deque⟩

/-- `RecentlyConsumed._prune_to_maxlen` loop body, with the deque length as
fuel: while `len(self)` (the SET's size) exceeds `maxlen`, pop from the
deque's left and discard from the set.  (Python would raise `KeyError` on
removing a value absent from the set and `IndexError` on popping an empty
deque; neither is reachable in the runs proved about below.) -/
def rcPruneGo (cap : Nat) : Nat → List String → List String → List String × List String
  | 0, dq, s => (dq, s)
  | fuel + 1, dq, s =>
      if cap < s.length then
        match dq with
        | [] => ([], s)
        | x :: rest => rcPruneGo cap fuel rest (s.erase x)
      else (dq, s)

def rcPrune (maxlen : Option Nat) (q : RCState) : RCState :=
  match maxlen with
  | none => q
  | some cap =>
      let r := rcPruneGo cap q.deque.length q.deque q.mset
      ⟨r.1, r.2⟩

/-- `RecentlyConsumed.append(value)`. -/
def rcAppend (maxlen : Option Nat) (v : String) (q : RCState) (store : RCStore) :
    RCState × RCStore :=
  if q.mset.contains v then (q, store)
  else
    let q1 : RCState := ⟨q.deque ++ [v], setInsert v q.mset⟩
    let q2 := rcPrune maxlen q1
    (q2, rcStoreToMemcache q2 store)

/-- `RecentlyConsumed.extend(values)`: keep the values not already members
(the filter consults only the PRE-state membership set, so duplicates inside
`values` itself all pass), then extend the deque, update the set, prune and
persist once. -/
def rcExtend (maxlen : Option Nat) (vs : List String) (q : RCState)
    (store : RCStore) : RCState × RCStore :=
  let values := vs.filter (fun v => !(q.mset.contains v))
  if values.isEmpty then (q, store)
  else
    let q1 : RCState := ⟨q.deque ++ values,
      values.foldl (fun s x => setInsert x s) q.mset⟩
    let q2 := rcPrune maxlen q1
    (q2, rcStoreToMemcache q2 store)

/-- `RecentlyConsumed.clear()`: empty both containers and persist (which
deletes the key). -/
def rcClear (_q : RCState) (store : RCStore) : RCState × RCStore :=
  let q1 : RCState := ⟨[], []⟩
  (q1, rcStoreToMemcache q1 store)

/-- C3 (code bug): `extend` filters the new values only against the
pre-state membership set, so a value occurring twice in one `extend` call
enters the deque twice.  Concretely, on an empty queue with `maxlen=10`,
`extend(['a', 'a'])` leaves the sequence `['a', 'a']` — a duplicate — while
`len()` (the set size) reports 1; the no-duplicates invariant fails. -/
theorem consumed_extend_duplicate_bug :
    (rcExtend (some 10) ["a", "a"] ⟨[], []⟩ ⟨none⟩).1.deque = ["a", "a"] ∧
    ¬ (rcExtend (some 10) ["a", "a"] ⟨[], []⟩ ⟨none⟩).1.deque.Nodup ∧
    (rcExtend (some 10) ["a", "a"] ⟨[], []⟩ ⟨none⟩).1.mset.length = 1 := by
  refine ⟨rfl, ?_, rfl⟩
  intro h
  have := List.nodup_cons.mp h
  simp at this

/-- C5 (code bug): after the successful mutation `extend(['a', 'a', 'b'])`
on an empty queue with `maxlen=2` (no pruning occurs: the set size is 2),
the persisted sequence is `['a', 'a', 'b']` of length 3, so a freshly
constructed instance on the same key does not observe the same logical
state — its load raises `PersistedOverflow` instead. -/
theorem consumed_persistence_overflow_bug :
    (rcExtend (some 2) ["a", "a", "b"] ⟨[], []⟩ ⟨none⟩).2.val =
      some ["a", "a", "b"] ∧
    rcLoad (some 2) (rcExtend (some 2) ["a", "a", "b"] ⟨[], []⟩ ⟨none⟩).2 =
      Except.error RCErr.persistedOverflow := by
  exact ⟨rfl, rfl⟩

/-- C8: loading a bounded queue treats an absent key as the empty array and
fails with `PersistedOverflow` exactly when the persisted sequence is longer
than `maxlen`; an unbounded queue never fails the check. -/
theorem consumed_load_overflow_iff (maxlen : Option Nat) (store : RCStore) :
    (rcLoad maxlen store = Except.error RCErr.persistedOverflow ↔
      ∃ cap, maxlen = some cap ∧ cap < (store.val.getD []).length) ∧
    (store.val = none → rcLoad maxlen store = Except.ok ⟨[], []⟩) := by
  constructor
  · cases maxlen with
    | none =>
        simp only [rcLoad]
        constructor
        · intro h; cases h
        · rintro ⟨cap, hcap, -⟩; cases hcap
    | some cap =>
        simp only [rcLoad]
        by_cases hlt : cap < (store.val.getD []).length
        · rw [if_pos hlt]
          simp [hlt]
        · rw [if_neg hlt]
          constructor
          · intro h; cases h
          · rintro ⟨cap2, hcap2, h2⟩
            injection hcap2 with hcap2
            subst hcap2
            exact absurd h2 hlt
  · intro h
    cases maxlen with
    | none => simp [rcLoad, h, listToSet]
    | some cap => simp [rcLoad, h, listToSet]

/-- Witness for C8: a bounded queue with an absent key loads as empty. -/
theorem consumed_load_overflow_iff_witness :
    rcLoad (some 3) ⟨none⟩ = Except.ok ⟨[], []⟩ :=
  (consumed_load_overflow_iff (some 3) ⟨none⟩).2 rfl

/-! ## Derived sizes (`BloomFilter.size` and `BloomFilter.num_hashes`)

The source computes with floating point `math.log`; the model uses real
logarithms, and each concrete value proved below is bounded strictly away
from an integer boundary.  `size` divided by `num_values` in the source is
Python 2 integer division of two ints, i.e. floor division (`Int.fdiv`).
-/

noncomputable def bfSize (n : Nat) (p : ℝ) : Int :=
  let raw : Int := ⌈-(n : ℝ) * Real.log p / Real.log 2 ^ 2⌉
  raw + (8 - raw % 8) % 8

noncomputable def bfNumHashes (n : Nat) (p : ℝ) : Int :=
  ⌈((Int.fdiv (bfSize n p) (n : Int)) : ℝ) * Real.log 2⌉

/-- The claim's `k`-formula read literally, with real (true) division
`m / n` in place of the source's integer floor division. -/
noncomputable def bfNumHashesSpecFormula (n : Nat) (p : ℝ) : Int :=
  ⌈((bfSize n p : ℝ) / (n : ℝ)) * Real.log 2⌉

theorem log_ten_gt : (2.302577 : ℝ) < Real.log 10 := by
  have h1 : (2 : ℝ) ^ 485 < 10 ^ 146 := by norm_num
  have l1 := Real.log_lt_log (by positivity) h1
  rw [Real.log_pow, Real.log_pow] at l1
  push_cast at l1
  nlinarith [Real.log_two_gt_d9, l1]

theorem log_ten_lt : Real.log 10 < (2.302659 : ℝ) := by
  have h2 : (10 : ℝ) ^ 59 < 2 ^ 196 := by norm_num
  have l2 := Real.log_lt_log (by positivity) h2
  rw [Real.log_pow, Real.log_pow] at l2
  push_cast at l2
  nlinarith [Real.log_two_lt_d9, l2]

theorem log_two_sq_gt : (0.4804530135 : ℝ) < Real.log 2 ^ 2 := by
  nlinarith [Real.log_two_gt_d9, Real.log_two_lt_d9]

theorem log_two_sq_lt : Real.log 2 ^ 2 < (0.4804530143 : ℝ) := by
  nlinarith [Real.log_two_gt_d9, Real.log_two_lt_d9]

theorem log_two_sq_pos : (0 : ℝ) < Real.log 2 ^ 2 := by
  nlinarith [log_two_sq_gt]

/-- The raw ceiling `⌈n·(−ln p)/(ln 2)²⌉` where `-Real.log p = c * Real.log 10`. -/
theorem size_raw_ceil (n : Nat) (c : ℝ) (z : ℤ)
    (h1 : ((z : ℝ) - 1) * (0.4804530143 : ℝ) ≤ (n : ℝ) * c * (2.302577 : ℝ))
    (h2 : (n : ℝ) * c * (2.302659 : ℝ) ≤ (z : ℝ) * (0.4804530135 : ℝ))
    (hz : 1 ≤ z) (hnc : (0 : ℝ) < (n : ℝ) * c) :
    ⌈(n : ℝ) * (c * Real.log 10) / Real.log 2 ^ 2⌉ = z := by
  rw [Int.ceil_eq_iff]
  have hgt := log_ten_gt
  have hlt := log_ten_lt
  have hsqg := log_two_sq_gt
  have hsql := log_two_sq_lt
  have hsqp := log_two_sq_pos
  have hz' : (0 : ℝ) ≤ (z : ℝ) - 1 := by
    have : (1 : ℝ) ≤ (z : ℝ) := by exact_mod_cast hz
    linarith
  constructor
  · rw [lt_div_iff₀ hsqp]
    have p1 : (0 : ℝ) ≤ ((z : ℝ) - 1) * ((0.4804530143 : ℝ) - Real.log 2 ^ 2) :=
      mul_nonneg hz' (by linarith)
    have p2 : (0 : ℝ) < (n : ℝ) * c * (Real.log 10 - (2.302577 : ℝ)) :=
      mul_pos hnc (by linarith)
    nlinarith [p1, p2]
  · rw [div_le_iff₀ hsqp]
    have p3 : (0 : ℝ) ≤ (n : ℝ) * c * ((2.302659 : ℝ) - Real.log 10) :=
      mul_nonneg (le_of_lt hnc) (by linarith)
    have p4 : (0 : ℝ) ≤ (z : ℝ) * (Real.log 2 ^ 2 - (0.4804530135 : ℝ)) :=
      mul_nonneg (by linarith) (by linarith)
    nlinarith [p3, p4]

theorem log_inv_ten : Real.log ((1 : ℝ) / 10) = -(1 * Real.log 10) := by
  rw [one_div, Real.log_inv]
  ring

theorem log_inv_hundred : Real.log ((1 : ℝ) / 100) = -(2 * Real.log 10) := by
  rw [one_div, Real.log_inv, show (100 : ℝ) = 10 ^ 2 by norm_num, Real.log_pow]
  push_cast
  ring

theorem bfSize_raw (n : Nat) (c : ℝ) (z : ℤ) (p : ℝ)
    (hp : Real.log p = -(c * Real.log 10))
    (h1 : ((z : ℝ) - 1) * (0.4804530143 : ℝ) ≤ (n : ℝ) * c * (2.302577 : ℝ))
    (h2 : (n : ℝ) * c * (2.302659 : ℝ) ≤ (z : ℝ) * (0.4804530135 : ℝ))
    (hz : 1 ≤ z) (hnc : (0 : ℝ) < (n : ℝ) * c) :
    bfSize n p = z + (8 - z % 8) % 8 := by
  unfold bfSize
  have : ⌈-(n : ℝ) * Real.log p / Real.log 2 ^ 2⌉ = z := by
    rw [hp, show -(n : ℝ) * -(c * Real.log 10) = (n : ℝ) * (c * Real.log 10) by ring]
    exact size_raw_ceil n c z h1 h2 hz hnc
  rw [this]

theorem bfSize_100_p1 : bfSize 100 (1 / 10) = 480 := by
  rw [bfSize_raw 100 1 480 _ log_inv_ten (by norm_num) (by norm_num) (by norm_num) (by norm_num)]
  decide

theorem bfSize_100_p01 : bfSize 100 (1 / 100) = 960 := by
  rw [bfSize_raw 100 2 959 _ log_inv_hundred (by norm_num) (by norm_num) (by norm_num) (by norm_num)]
  decide

theorem bfSize_1000_p1 : bfSize 1000 (1 / 10) = 4800 := by
  rw [bfSize_raw 1000 1 4793 _ log_inv_ten (by norm_num) (by norm_num) (by norm_num) (by norm_num)]
  decide

theorem bfSize_1000_p01 : bfSize 1000 (1 / 100) = 9592 := by
  rw [bfSize_raw 1000 2 9586 _ log_inv_hundred (by norm_num) (by norm_num) (by norm_num) (by norm_num)]
  decide

theorem ceil_four_log_two : ⌈(4 : ℝ) * Real.log 2⌉ = 3 := by
  rw [Int.ceil_eq_iff]
  constructor
  · push_cast
    nlinarith [Real.log_two_gt_d9]
  · push_cast
    nlinarith [Real.log_two_lt_d9]

theorem ceil_nine_log_two : ⌈(9 : ℝ) * Real.log 2⌉ = 7 := by
  rw [Int.ceil_eq_iff]
  constructor
  · push_cast
    nlinarith [Real.log_two_gt_d9]
  · push_cast
    nlinarith [Real.log_two_lt_d9]

/-- C6 counterexample: the claim's formula `k = ⌈(m/n)·ln 2⌉`, read with
real division as written, yields `k = 4` for `n = 100, p = 0.1`, while the
code (and the claim's own concrete table) gives `k = 3`. -/
theorem num_hashes_spec_formula_counterexample :
    bfNumHashesSpecFormula 100 (1 / 10) = 4 ∧ bfNumHashes 100 (1 / 10) = 3 := by
  constructor
  · unfold bfNumHashesSpecFormula
    rw [bfSize_100_p1]
    rw [show ((480 : ℤ) : ℝ) / ((100 : Nat) : ℝ) * Real.log 2 =
        (24 : ℝ) / 5 * Real.log 2 by norm_num]
    rw [Int.ceil_eq_iff]
    constructor
    · push_cast
      nlinarith [Real.log_two_gt_d9]
    · push_cast
      nlinarith [Real.log_two_lt_d9]
  · unfold bfNumHashes
    rw [bfSize_100_p1]
    rw [show Int.fdiv 480 ((100 : Nat) : Int) = 4 by decide]
    rw [show ((4 : ℤ) : ℝ) = (4 : ℝ) by norm_num]
    exact ceil_four_log_two

/-- C6 (amended): sizing is deterministic with
`m_raw = ⌈−n·ln(p)/(ln 2)²⌉`, `m = m_raw + ((8 − m_raw mod 8) mod 8)` and
`k = ⌈⌊m/n⌋·ln 2⌉` (integer floor division, as in the source); concretely
`(n=100, p=0.1) ↦ (480, 3)`, `(n=100, p=0.01) ↦ (960, 7)`,
`(n=1000, p=0.1) ↦ (4800, 3)`, `(n=1000, p=0.01) ↦ (9592, 7)`. -/
theorem bloom_sizing_deterministic :
    bfSize 100 (1 / 10) = 480 ∧ bfNumHashes 100 (1 / 10) = 3 ∧
    bfSize 100 (1 / 100) = 960 ∧ bfNumHashes 100 (1 / 100) = 7 ∧
    bfSize 1000 (1 / 10) = 4800 ∧ bfNumHashes 1000 (1 / 10) = 3 ∧
    bfSize 1000 (1 / 100) = 9592 ∧ bfNumHashes 1000 (1 / 100) = 7 := by
  refine ⟨bfSize_100_p1, ?_, bfSize_100_p01, ?_, bfSize_1000_p1, ?_,
    bfSize_1000_p01, ?_⟩
  · unfold bfNumHashes
    rw [bfSize_100_p1, show Int.fdiv 480 ((100 : Nat) : Int) = 4 by decide,
      show ((4 : ℤ) : ℝ) = (4 : ℝ) by norm_num]
    exact ceil_four_log_two
  · unfold bfNumHashes
    rw [bfSize_100_p01, show Int.fdiv 960 ((100 : Nat) : Int) = 9 by decide,
      show ((9 : ℤ) : ℝ) = (9 : ℝ) by norm_num]
    exact ceil_nine_log_two
  · unfold bfNumHashes
    rw [bfSize_1000_p1, show Int.fdiv 4800 ((1000 : Nat) : Int) = 4 by decide,
      show ((4 : ℤ) : ℝ) = (4 : ℝ) by norm_num]
    exact ceil_four_log_two
  · unfold bfNumHashes
    rw [bfSize_1000_p01, show Int.fdiv 9592 ((1000 : Nat) : Int) = 9 by decide,
      show ((9 : ℤ) : ℝ) = (9 : ℝ) by norm_num]
    exact ceil_nine_log_two

end BloomSpec
